import Mathlib

/-!
Verification of the lockbox secret store: a shallow embedding of its
crypto engine, key manager, secret/config store, env formatter and the
remote get-one handler, with theorems about their specified behaviour.

Bytes are modelled as natural numbers (values below 256 where produced
by the code); fallible operations return `Except` or `Option`.
-/

namespace Lockbox

/-- KeySize is the size of the AES-256 key in bytes (internal/crypto). -/
def KeySize : Nat := 32

/-- NonceSize is the size of the GCM nonce in bytes (internal/crypto). -/
def NonceSize : Nat := 12

/-- Error kinds of the crypto engine, one per distinct error return site
of `Encrypt`/`Decrypt` in internal/crypto. -/
inductive CryptoErr where
  | invalidKeySize
  | malformedCiphertext
  | authenticationFailure
deriving DecidableEq, Repr

/-- Modelled from the spec: the keystream of the stdlib AEAD primitive
(crypto/cipher GCM over AES-256, not part of this repository).  A
deterministic byte stream derived from the key and the nonce; its only
properties used by the code are determinism and that it yields as many
bytes as requested. -/
def keystream (key nonce : List Nat) (n : Nat) : List Nat :=
  (List.range n).map (fun i =>
    ((key ++ nonce).foldl (fun a b => (a * 131 + b + 1) % 65521) (i + 1)) % 256)

/-- Modelled from the spec: the 128-bit (16-byte) authentication tag the
stdlib AEAD seal operation appends (crypto/cipher GCM, not part of this
repository): a deterministic 16-byte digest of key, nonce and
ciphertext. -/
def sealTag (key nonce ct : List Nat) : List Nat :=
  (List.range 16).map (fun i =>
    ((key ++ nonce ++ ct).foldl (fun a b => (a * 131 + b + i + 1) % 65521) 0) % 256)

/-- Byte-wise XOR of two byte lists (truncating to the shorter). -/
def xorBytes (a b : List Nat) : List Nat :=
  List.zipWith (fun x y => x ^^^ y) a b

/-- Modelled from the spec: `gcm.Seal(nil, nonce, plaintext, nil)` of the
stdlib AEAD (not part of this repository): ciphertext of the plaintext
length followed by the 16-byte authentication tag. -/
def gcmSeal (key nonce pt : List Nat) : List Nat :=
  let ct := xorBytes pt (keystream key nonce pt.length)
  ct ++ sealTag key nonce ct

/-- Modelled from the spec: `gcm.Open(nil, nonce, data, nil)` of the
stdlib AEAD (not part of this repository): verifies the trailing 16-byte
tag and inverts the seal; any verification failure yields `none`. -/
def gcmOpen (key nonce data : List Nat) : Option (List Nat) :=
  if data.length < 16 then none
  else
    let ct := data.take (data.length - 16)
    let tg := data.drop (data.length - 16)
    if tg = sealTag key nonce ct then
      some (xorBytes ct (keystream key nonce ct.length))
    else none

/-- `Encrypt` from internal/crypto: validates the key size, then returns
the fresh random nonce (modelled as the explicit `nonce` argument, read
from the secure random source) prepended to the sealed payload. -/
def Encrypt (plaintext key nonce : List Nat) : Except CryptoErr (List Nat) :=
  if key.length ≠ KeySize then .error .invalidKeySize
  else .ok (nonce ++ gcmSeal key nonce plaintext)

/-- `Decrypt` from internal/crypto: validates the key size, requires at
least `NonceSize` bytes, splits off the nonce and opens the remainder. -/
def Decrypt (ciphertext key : List Nat) : Except CryptoErr (List Nat) :=
  if key.length ≠ KeySize then .error .invalidKeySize
  else if ciphertext.length < NonceSize then .error .malformedCiphertext
  else
    match gcmOpen key (ciphertext.take NonceSize) (ciphertext.drop NonceSize) with
    | none => .error .authenticationFailure
    | some pt => .ok pt

theorem keystream_length (key nonce : List Nat) (n : Nat) :
    (keystream key nonce n).length = n := by
  simp [keystream]

theorem sealTag_length (key nonce ct : List Nat) :
    (sealTag key nonce ct).length = 16 := by
  simp [sealTag]

theorem xorBytes_length (a b : List Nat) :
    (xorBytes a b).length = min a.length b.length := by
  simp [xorBytes]

theorem xorBytes_xorBytes_cancel (a b : List Nat) (h : a.length = b.length) :
    xorBytes (xorBytes a b) b = a := by
  induction a generalizing b with
  | nil => simp [xorBytes]
  | cons x xs ih =>
    cases b with
    | nil => simp at h
    | cons y ys =>
      simp only [xorBytes, List.zipWith] at ih ⊢
      simp only [List.length_cons, Nat.succ_inj] at h
      rw [Nat.xor_cancel_right]
      exact congrArg (x :: ·) (ih ys h)

theorem gcmSeal_length (key nonce pt : List Nat) :
    (gcmSeal key nonce pt).length = pt.length + 16 := by
  simp [gcmSeal, xorBytes_length, keystream_length, sealTag_length]

theorem gcmOpen_gcmSeal (key nonce pt : List Nat) :
    gcmOpen key nonce (gcmSeal key nonce pt) = some pt := by
  have hct : (xorBytes pt (keystream key nonce pt.length)).length = pt.length := by
    simp [xorBytes_length, keystream_length]
  simp only [gcmSeal, gcmOpen, List.length_append, hct, sealTag_length]
  have hlen : ¬ pt.length + 16 < 16 := by omega
  rw [if_neg hlen]
  have htake : (xorBytes pt (keystream key nonce pt.length) ++
      sealTag key nonce (xorBytes pt (keystream key nonce pt.length))).take
      (pt.length + 16 - 16) = xorBytes pt (keystream key nonce pt.length) := by
    have : pt.length + 16 - 16 = (xorBytes pt (keystream key nonce pt.length)).length := by
      omega
    rw [this, List.take_left]
  have hdrop : (xorBytes pt (keystream key nonce pt.length) ++
      sealTag key nonce (xorBytes pt (keystream key nonce pt.length))).drop
      (pt.length + 16 - 16) = sealTag key nonce (xorBytes pt (keystream key nonce pt.length)) := by
    have : pt.length + 16 - 16 = (xorBytes pt (keystream key nonce pt.length)).length := by
      omega
    rw [this, List.drop_left]
  rw [htake, hdrop, if_pos rfl, hct]
  exact congrArg some (xorBytes_xorBytes_cancel pt (keystream key nonce pt.length)
    (by rw [keystream_length]))

/-- C1: decrypting the blob produced by `Encrypt(P, K)` with the same
32-byte key `K` succeeds and returns exactly `P` (the nonce argument
models the 12 random bytes `Encrypt` draws from the secure source). -/
theorem decrypt_encrypt_roundtrip (pt key nonce : List Nat)
    (hkey : key.length = 32) (hnonce : nonce.length = 12) (blob : List Nat)
    (henc : Encrypt pt key nonce = .ok blob) :
    Decrypt blob key = .ok pt := by
  have hk : ¬ key.length ≠ KeySize := by simp [KeySize, hkey]
  rw [Encrypt, if_neg hk] at henc
  cases henc
  rw [Decrypt, if_neg hk]
  have hblen : (nonce ++ gcmSeal key nonce pt).length = pt.length + 28 := by
    simp [gcmSeal_length, hnonce]; omega
  have hge : ¬ (nonce ++ gcmSeal key nonce pt).length < NonceSize := by
    rw [hblen]; simp [NonceSize]
  rw [if_neg hge]
  have htake : (nonce ++ gcmSeal key nonce pt).take NonceSize = nonce := by
    have h12 : NonceSize = nonce.length := by rw [hnonce]; rfl
    rw [h12, List.take_left]
  have hdrop : (nonce ++ gcmSeal key nonce pt).drop NonceSize = gcmSeal key nonce pt := by
    have h12 : NonceSize = nonce.length := by rw [hnonce]; rfl
    rw [h12, List.drop_left]
  rw [htake, hdrop, gcmOpen_gcmSeal]

theorem decrypt_encrypt_roundtrip_witness :
    (List.replicate 32 7 : List Nat).length = 32 ∧
    (List.replicate 12 3 : List Nat).length = 12 ∧
    Encrypt [1, 2, 3] (List.replicate 32 7) (List.replicate 12 3) =
      .ok ((List.replicate 12 3) ++ gcmSeal (List.replicate 32 7) (List.replicate 12 3) [1, 2, 3]) ∧
    Decrypt ((List.replicate 12 3) ++ gcmSeal (List.replicate 32 7) (List.replicate 12 3) [1, 2, 3])
      (List.replicate 32 7) = .ok [1, 2, 3] :=
  ⟨by decide, by decide, rfl,
    decrypt_encrypt_roundtrip [1, 2, 3] (List.replicate 32 7) (List.replicate 12 3)
      (by decide) (by decide) _ rfl⟩

/-- C8: `Encrypt` fails with `InvalidKeySize` for every key whose length
is not 32; for every 32-byte key it succeeds with a blob of the form
nonce(12 bytes) followed by the AEAD ciphertext with its 16-byte tag, so
the blob length is the plaintext length plus 28 and the blob is
non-empty even for empty plaintext. -/
theorem encrypt_behaviour (pt key nonce : List Nat) (hnonce : nonce.length = 12) :
    (key.length ≠ 32 → Encrypt pt key nonce = .error .invalidKeySize) ∧
    (key.length = 32 → ∃ blob, Encrypt pt key nonce = .ok blob ∧
      blob.length = pt.length + 28 ∧ blob.take 12 = nonce ∧
      blob.drop 12 = xorBytes pt (keystream key nonce pt.length) ++
        sealTag key nonce (xorBytes pt (keystream key nonce pt.length)) ∧
      (blob.drop 12).length = pt.length + 16 ∧ 0 < blob.length) := by
  constructor
  · intro hk
    rw [Encrypt, if_pos]
    simpa [KeySize] using hk
  · intro hk
    have hk2 : ¬ key.length ≠ KeySize := by simp [KeySize, hk]
    refine ⟨nonce ++ gcmSeal key nonce pt, by rw [Encrypt, if_neg hk2], ?_, ?_, ?_, ?_, ?_⟩
    · simp [gcmSeal_length, hnonce]; omega
    · have h12 : (12 : Nat) = nonce.length := hnonce.symm
      rw [h12, List.take_left]
    · have h12 : (12 : Nat) = nonce.length := hnonce.symm
      rw [h12, List.drop_left]; rfl
    · have h12 : (12 : Nat) = nonce.length := hnonce.symm
      rw [h12, List.drop_left, gcmSeal_length]
    · simp [gcmSeal_length, hnonce]

theorem encrypt_behaviour_witness :
    (List.replicate 12 3 : List Nat).length = 12 ∧
    Encrypt [5] [1, 2] (List.replicate 12 3) = .error .invalidKeySize ∧
    (∃ blob, Encrypt ([] : List Nat) (List.replicate 32 7) (List.replicate 12 3) = .ok blob ∧
      blob.length = ([] : List Nat).length + 28 ∧ blob.take 12 = List.replicate 12 3 ∧
      blob.drop 12 = xorBytes ([] : List Nat)
          (keystream (List.replicate 32 7) (List.replicate 12 3) ([] : List Nat).length) ++
        sealTag (List.replicate 32 7) (List.replicate 12 3)
          (xorBytes ([] : List Nat)
            (keystream (List.replicate 32 7) (List.replicate 12 3) ([] : List Nat).length)) ∧
      (blob.drop 12).length = ([] : List Nat).length + 16 ∧ 0 < blob.length) :=
  ⟨by decide,
    (encrypt_behaviour [5] [1, 2] (List.replicate 12 3) (by decide)).1 (by decide),
    (encrypt_behaviour ([] : List Nat) (List.replicate 32 7) (List.replicate 12 3)
      (by decide)).2 (by decide)⟩

/-- One lowercase hex digit, as in the Go encoding/hex table
"0123456789abcdef" (48 = digit zero, 87 + 10 = letter a). -/
def hexDigitChar (n : Nat) : Char :=
  if n < 10 then Char.ofNat (48 + n) else Char.ofNat (87 + n)

/-- `hex.EncodeToString`: two lowercase hex digits per byte, high nibble
first. -/
def hexEncode : List Nat → List Char
  | [] => []
  | b :: rest => hexDigitChar (b / 16) :: hexDigitChar (b % 16) :: hexEncode rest

/-- Value of one hex digit as accepted by Go `hex.DecodeString`
(digits, lowercase a-f, uppercase A-F). -/
def hexDigitVal (c : Char) : Option Nat :=
  if 48 ≤ c.toNat ∧ c.toNat ≤ 57 then some (c.toNat - 48)
  else if 97 ≤ c.toNat ∧ c.toNat ≤ 102 then some (c.toNat - 87)
  else if 65 ≤ c.toNat ∧ c.toNat ≤ 70 then some (c.toNat - 55)
  else none

/-- `hex.DecodeString`: fails on an odd-length input or a non-hex
character. -/
def hexDecode : List Char → Option (List Nat)
  | [] => some []
  | [_] => none
  | a :: b :: rest =>
    match hexDigitVal a, hexDigitVal b, hexDecode rest with
    | some x, some y, some r => some ((x * 16 + y) :: r)
    | _, _, _ => none

theorem hexDigitVal_hexDigitChar : ∀ n < 16, hexDigitVal (hexDigitChar n) = some n := by
  decide

theorem hexEncode_length (bs : List Nat) : (hexEncode bs).length = 2 * bs.length := by
  induction bs with
  | nil => rfl
  | cons b rest ih => simp [hexEncode, ih]; omega

theorem hexDecode_hexEncode (bs : List Nat) (h : ∀ b ∈ bs, b < 256) :
    hexDecode (hexEncode bs) = some bs := by
  induction bs with
  | nil => rfl
  | cons b rest ih =>
    have hb : b < 256 := h b (by simp)
    have hhi : hexDigitVal (hexDigitChar (b / 16)) = some (b / 16) :=
      hexDigitVal_hexDigitChar (b / 16) (by omega)
    have hlo : hexDigitVal (hexDigitChar (b % 16)) = some (b % 16) :=
      hexDigitVal_hexDigitChar (b % 16) (by omega)
    have hrest : hexDecode (hexEncode rest) = some rest :=
      ih (fun x hx => h x (by simp [hx]))
    have hsplit : b / 16 * 16 + b % 16 = b := by omega
    cases heq : hexEncode rest with
    | nil =>
      rw [hexEncode]
      rw [heq] at hrest ⊢
      simp [hexDecode, hhi, hlo, hsplit, hrest.symm]
      cases hrest; rfl
    | cons c cs =>
      rw [hexEncode, heq]
      rw [heq] at hrest
      simp only [hexDecode, hhi, hlo, hrest, hsplit]

/-- Insert-or-replace into an association list with a unique key column,
modelling SQL INSERT OR REPLACE on a TEXT PRIMARY KEY: the new row
replaces any row with the same key. -/
def upsertRow (l : List (String × α)) (k : String) (v : α) : List (String × α) :=
  (k, v) :: l.filter (fun p => p.1 ≠ k)

/-- The persistent store from internal/db migrate: the `config` and
`secrets` tables, each a mapping keyed by a TEXT PRIMARY KEY.  Config
values are the stored blob characters (the hex text of the key); secret
values are encrypted blobs; the secrets timestamps play no role in any
claim and are omitted. -/
structure Store where
  config : List (String × List Char)
  secrets : List (String × List Nat)
deriving DecidableEq, Repr

/-- Store error kinds: `ErrNotFound` from internal/db (other storage
failures of the SQL engine are outside the pure model). -/
inductive DbErr where
  | notFound
deriving DecidableEq, Repr

/-- `GetConfig` (internal/db): `none` models `ErrNotFound`. -/
def GetConfig (s : Store) (k : String) : Option (List Char) :=
  s.config.lookup k

/-- `SetConfig` (internal/db): INSERT OR REPLACE into config. -/
def SetConfig (s : Store) (k : String) (v : List Char) : Store :=
  { s with config := upsertRow s.config k v }

/-- `SetSecret` (internal/db): INSERT OR REPLACE into secrets. -/
def SetSecret (s : Store) (k : String) (v : List Nat) : Store :=
  { s with secrets := upsertRow s.secrets k v }

/-- `GetSecret` (internal/db): `none` models `ErrNotFound`. -/
def GetSecret (s : Store) (k : String) : Option (List Nat) :=
  s.secrets.lookup k

/-- `DeleteSecret` (internal/db): DELETE matching rows, then report
`ErrNotFound` exactly when the affected-row count is zero. -/
def DeleteSecret (s : Store) (k : String) : Except DbErr Store :=
  let remaining := s.secrets.filter (fun p => p.1 ≠ k)
  if s.secrets.length - remaining.length = 0 then .error .notFound
  else .ok { s with secrets := remaining }

/-- `ListSecrets` (internal/db): SELECT key FROM secrets ORDER BY key
ASC, modelled by sorting the key column. -/
def ListSecrets (s : Store) : List String :=
  List.insertionSort (· ≤ ·) (s.secrets.map Prod.fst)

theorem lookup_upsertRow_self (l : List (String × α)) (k : String) (v : α) :
    (upsertRow l k v).lookup k = some v := by
  simp [upsertRow, List.lookup]

/-- Error kinds of the key-retrieval path of getStoreAndKey (main.go). -/
inductive KeyErr where
  | notInitialized
  | corruptKey
deriving DecidableEq, Repr

/-- The key-retrieval half of `getStoreAndKey` (main.go): read the
"encryption_key" config entry and hex-decode it; an absent entry and an
undecodable entry are the two failure cases. -/
def getKey (s : Store) : Except KeyErr (List Nat) :=
  match GetConfig s "encryption_key" with
  | none => .error .notInitialized
  | some keyHex =>
    match hexDecode keyHex with
    | none => .error .corruptKey
    | some key => .ok key

/-- Result values of the init command. -/
inductive InitResult where
  | created
  | alreadyInitialized
deriving DecidableEq, Repr

/-- `initCmd.Run` (main.go): if the key config entry exists, report
already-initialized and change nothing; otherwise persist the hex
encoding of the freshly generated key (`newKey` models the 32 random
bytes drawn by crypto.GenerateKey). -/
def initCmd (s : Store) (newKey : List Nat) : Store × InitResult :=
  match GetConfig s "encryption_key" with
  | some _ => (s, .alreadyInitialized)
  | none => (SetConfig s "encryption_key" (hexEncode newKey), .created)

/-- C3 counterexample: a stored hex string that decodes to 2 bytes (not
32) makes `getKey` succeed with those 2 bytes instead of failing with
`CorruptKey` — the code never checks the decoded length. -/
theorem getKey_no_length_check :
    hexDecode [Char.ofNat 97, Char.ofNat 98, Char.ofNat 99, Char.ofNat 100] = some [171, 205] ∧
    ([171, 205] : List Nat).length ≠ 32 ∧
    getKey { config := [("encryption_key",
        [Char.ofNat 97, Char.ofNat 98, Char.ofNat 99, Char.ofNat 100])], secrets := [] } =
      .ok [171, 205] := by
  refine ⟨by decide, by decide, ?_⟩
  rfl

/-- C3 (amended): `getKey` fails with `NotInitialized` when the key
config entry is absent, fails with `CorruptKey` when the stored hex text
does not decode, and returns whatever bytes the hex text decodes to —
without checking that their length is 32. -/
theorem getKey_behaviour (s : Store) :
    (GetConfig s "encryption_key" = none → getKey s = .error .notInitialized) ∧
    (∀ hx, GetConfig s "encryption_key" = some hx →
      (hexDecode hx = none → getKey s = .error .corruptKey) ∧
      (∀ bs, hexDecode hx = some bs → getKey s = .ok bs)) := by
  constructor
  · intro habs
    simp only [getKey, habs]
  · intro hx hsome
    constructor
    · intro hbad
      simp only [getKey, hsome, hbad]
    · intro bs hgood
      simp only [getKey, hsome, hgood]

theorem getKey_behaviour_witness :
    (GetConfig { config := [], secrets := [] } "encryption_key" = none) ∧
    getKey { config := [], secrets := [] } = .error .notInitialized :=
  ⟨by decide, (getKey_behaviour { config := [], secrets := [] }).1 (by decide)⟩

/-- C4: on a store with no key config entry, `initCmd` returns
Created and persists the hex encoding of the fresh 32-byte key (64 hex
characters, decoding back to exactly those key bytes); calling it again
returns AlreadyInitialized with the store totally unchanged, so the
stored key bytes are identical before and after the second call. -/
theorem initCmd_creates_then_idempotent (s : Store) (k1 k2 : List Nat)
    (hfresh : GetConfig s "encryption_key" = none)
    (hlen : k1.length = 32) (hbytes : ∀ b ∈ k1, b < 256) :
    (initCmd s k1).2 = .created ∧
    GetConfig (initCmd s k1).1 "encryption_key" = some (hexEncode k1) ∧
    (hexEncode k1).length = 64 ∧
    getKey (initCmd s k1).1 = .ok k1 ∧
    initCmd (initCmd s k1).1 k2 = ((initCmd s k1).1, .alreadyInitialized) := by
  have hinit : initCmd s k1 = (SetConfig s "encryption_key" (hexEncode k1), .created) := by
    simp only [initCmd, hfresh]
  have hget : GetConfig (SetConfig s "encryption_key" (hexEncode k1)) "encryption_key" =
      some (hexEncode k1) := by
    rw [GetConfig, SetConfig]
    exact lookup_upsertRow_self s.config "encryption_key" (hexEncode k1)
  refine ⟨by rw [hinit], by rw [hinit]; exact hget, ?_, ?_, ?_⟩
  · rw [hexEncode_length, hlen]
  · rw [hinit]
    show getKey (SetConfig s "encryption_key" (hexEncode k1)) = .ok k1
    simp only [getKey, hget, hexDecode_hexEncode k1 hbytes]
  · rw [hinit]
    show initCmd (SetConfig s "encryption_key" (hexEncode k1)) k2 = _
    simp only [initCmd, hget]

theorem initCmd_creates_then_idempotent_witness :
    (GetConfig { config := [], secrets := [] } "encryption_key" = none) ∧
    (List.replicate 32 7 : List Nat).length = 32 ∧
    (∀ b ∈ (List.replicate 32 7 : List Nat), b < 256) ∧
    ((initCmd { config := [], secrets := [] } (List.replicate 32 7)).2 = .created ∧
      GetConfig (initCmd { config := [], secrets := [] } (List.replicate 32 7)).1
        "encryption_key" = some (hexEncode (List.replicate 32 7)) ∧
      (hexEncode (List.replicate 32 7)).length = 64 ∧
      getKey (initCmd { config := [], secrets := [] } (List.replicate 32 7)).1 =
        .ok (List.replicate 32 7) ∧
      initCmd (initCmd { config := [], secrets := [] } (List.replicate 32 7)).1 [9] =
        ((initCmd { config := [], secrets := [] } (List.replicate 32 7)).1,
          .alreadyInitialized)) :=
  ⟨by decide, by decide, by decide,
    initCmd_creates_then_idempotent { config := [], secrets := [] }
      (List.replicate 32 7) [9] (by decide) (by decide) (by decide)⟩

theorem filter_ne_length_eq_iff_lookup_none (l : List (String × α)) (k : String) :
    (l.filter (fun p => p.1 ≠ k)).length = l.length ↔ l.lookup k = none := by
  induction l with
  | nil => simp
  | cons a rest ih =>
    by_cases hak : a.1 = k
    · have hdrop : (a :: rest).filter (fun p => p.1 ≠ k) =
          rest.filter (fun p => p.1 ≠ k) := by
        simp [List.filter, hak]
      have hle : (rest.filter (fun p => p.1 ≠ k)).length ≤ rest.length :=
        List.length_filter_le _ _
      have hlook : (a :: rest).lookup k = some a.2 := by
        simp [List.lookup, show (k == a.1) = true by simp [hak.symm]]
      rw [hdrop, hlook]
      simp only [List.length_cons]
      constructor
      · intro h; omega
      · intro h; cases h
    · have hkeep : (a :: rest).filter (fun p => p.1 ≠ k) =
          a :: rest.filter (fun p => p.1 ≠ k) := by
        simp [List.filter, hak]
      have hbeq : (k == a.1) = false := beq_eq_false_iff_ne.mpr (fun h => hak h.symm)
      have hlook : (a :: rest).lookup k = rest.lookup k := by
        simp [List.lookup, hbeq]
      rw [hkeep, hlook]
      simp only [List.length_cons, Nat.succ_inj]
      exact ih

theorem lookup_filter_ne (l : List (String × α)) (k : String) :
    (l.filter (fun p => p.1 ≠ k)).lookup k = none := by
  induction l with
  | nil => rfl
  | cons a rest ih =>
    by_cases hak : a.1 = k
    · simpa [List.filter, hak] using ih
    · have hkeep : (a :: rest).filter (fun p => p.1 ≠ k) =
          a :: rest.filter (fun p => p.1 ≠ k) := by
        simp [List.filter, hak]
      have hbeq : (k == a.1) = false := beq_eq_false_iff_ne.mpr (fun h => hak h.symm)
      rw [hkeep]
      simpa [List.lookup, hbeq] using ih

/-- C5: `DeleteSecret` fails with `NotFound` exactly when the key is
absent from the secrets mapping (the zero affected-row count), and after
a successful delete a `GetSecret` of the same key reports `NotFound`. -/
theorem deleteSecret_notFound_iff (s : Store) (k : String) :
    (DeleteSecret s k = .error .notFound ↔ GetSecret s k = none) ∧
    (∀ s', DeleteSecret s k = .ok s' → GetSecret s' k = none) := by
  have hfil := filter_ne_length_eq_iff_lookup_none s.secrets k
  have hle : (s.secrets.filter (fun p => p.1 ≠ k)).length ≤ s.secrets.length :=
    List.length_filter_le _ _
  constructor
  · constructor
    · intro hdel
      rw [DeleteSecret] at hdel
      by_cases hz : s.secrets.length - (s.secrets.filter (fun p => p.1 ≠ k)).length = 0
      · exact hfil.mp (by omega)
      · rw [if_neg hz] at hdel; cases hdel
    · intro habs
      have hlen : (s.secrets.filter (fun p => p.1 ≠ k)).length = s.secrets.length :=
        hfil.mpr habs
      rw [DeleteSecret, if_pos (by omega)]
  · intro s' hdel
    rw [DeleteSecret] at hdel
    by_cases hz : s.secrets.length - (s.secrets.filter (fun p => p.1 ≠ k)).length = 0
    · rw [if_pos hz] at hdel; cases hdel
    · rw [if_neg hz] at hdel
      cases hdel
      exact lookup_filter_ne s.secrets k

theorem deleteSecret_notFound_iff_witness :
    (DeleteSecret { config := [], secrets := [] } "k" = .error .notFound ↔
      GetSecret { config := [], secrets := [] } "k" = none) ∧
    GetSecret { config := [], secrets := [("k", [1])] } "k" = some [1] ∧
    DeleteSecret { config := [], secrets := [("k", [1])] } "k" =
      .ok { config := [], secrets := [] } ∧
    GetSecret { config := [], secrets := [] } "k" = none :=
  ⟨(deleteSecret_notFound_iff { config := [], secrets := [] } "k").1, by decide, rfl,
    (deleteSecret_notFound_iff { config := [], secrets := [("k", [1])] } "k").2
      { config := [], secrets := [] } rfl⟩

/-- C6: `ListSecrets` returns a permutation of the key column of the
secrets mapping (hence, the keys being unique, every key exactly once),
strictly sorted in ascending lexical order, and the empty store yields
the empty sequence. -/
theorem listSecrets_sorted (s : Store) (hnodup : (s.secrets.map Prod.fst).Nodup) :
    (ListSecrets s).Perm (s.secrets.map Prod.fst) ∧
    List.Sorted (· < ·) (ListSecrets s) ∧
    (s.secrets = [] → ListSecrets s = []) := by
  have hperm : (ListSecrets s).Perm (s.secrets.map Prod.fst) :=
    List.perm_insertionSort (· ≤ ·) (s.secrets.map Prod.fst)
  refine ⟨hperm, ?_, ?_⟩
  · have hsorted : List.Sorted (· ≤ ·) (ListSecrets s) :=
      List.sorted_insertionSort (· ≤ ·) (s.secrets.map Prod.fst)
    exact List.Sorted.lt_of_le hsorted (hperm.nodup_iff.mpr hnodup)
  · intro hempty
    rw [ListSecrets, hempty]
    rfl

theorem listSecrets_sorted_witness :
    ((List.map Prod.fst
        ([("b", [1]), ("a", [2]), ("c", [3])] : List (String × List Nat))).Nodup) ∧
    ((ListSecrets { config := [], secrets := [("b", [1]), ("a", [2]), ("c", [3])] }).Perm
        (List.map Prod.fst
          ([("b", [1]), ("a", [2]), ("c", [3])] : List (String × List Nat))) ∧
      List.Sorted (· < ·)
        (ListSecrets { config := [], secrets := [("b", [1]), ("a", [2]), ("c", [3])] }) ∧
      (([("b", [1]), ("a", [2]), ("c", [3])] : List (String × List Nat)) = [] →
        ListSecrets { config := [], secrets := [("b", [1]), ("a", [2]), ("c", [3])] } = [])) :=
  ⟨by decide,
    listSecrets_sorted { config := [], secrets := [("b", [1]), ("a", [2]), ("c", [3])] }
      (by decide)⟩

/-- The mutating secret operations a client can issue: `SetSecret`
(the spec calls it Upsert) and `DeleteSecret`. -/
inductive StoreOp where
  | set (k : String) (v : List Nat)
  | del (k : String)

/-- Apply one mutating secret operation; a failed delete leaves the
store unchanged. -/
def applyOp (s : Store) : StoreOp → Store
  | .set k v => SetSecret s k v
  | .del k =>
    match DeleteSecret s k with
    | .ok s' => s'
    | .error _ => s

/-- Apply a sequence of mutating secret operations in order. -/
def applyOps (s : Store) (ops : List StoreOp) : Store :=
  ops.foldl applyOp s

theorem config_applyOp (s : Store) (op : StoreOp) :
    (applyOp s op).config = s.config := by
  cases op with
  | set k v => rfl
  | del k =>
    simp only [applyOp, DeleteSecret]
    by_cases hz : s.secrets.length - (s.secrets.filter (fun p => p.1 ≠ k)).length = 0
    · rw [if_pos hz]
    · rw [if_neg hz]

/-- C10: the secrets and config tables are disjoint: any sequence of
`SetSecret`/`DeleteSecret` (Upsert/Delete) operations leaves every
`GetConfig` result unchanged; in particular storing or deleting a secret
named "encryption_key" leaves the stored encryption key untouched. -/
theorem getConfig_frame (s : Store) (ops : List StoreOp) (name : String) (v : List Nat) :
    GetConfig (applyOps s ops) name = GetConfig s name ∧
    GetConfig (SetSecret s "encryption_key" v) "encryption_key" =
      GetConfig s "encryption_key" ∧
    GetConfig (applyOp s (.del "encryption_key")) "encryption_key" =
      GetConfig s "encryption_key" := by
  have hone : ∀ t op, GetConfig (applyOp t op) name = GetConfig t name := by
    intro t op
    simp [GetConfig, config_applyOp]
  refine ⟨?_, rfl, ?_⟩
  · induction ops generalizing s with
    | nil => rfl
    | cons op rest ih =>
      show GetConfig (applyOps (applyOp s op) rest) name = _
      rw [ih (applyOp s op), hone s op]
  · simp [GetConfig, config_applyOp]

/-- Backslash. -/
def bsChar : Char := Char.ofNat 92

/-- Double quote. -/
def dqChar : Char := Char.ofNat 34

/-- Dollar sign. -/
def dollarChar : Char := Char.ofNat 36

/-- Backtick. -/
def btChar : Char := Char.ofNat 96

/-- Newline. -/
def nlChar : Char := Char.ofNat 10

/-- The escaping applied by envCmd.Run and the serve /env handler
(main.go): one left-to-right pass replacing backslash, double quote,
dollar and backtick each by a backslash-prefixed pair
(strings.NewReplacer semantics: non-overlapping matches, replacement
output is never rescanned). -/
def escapeShell : List Char → List Char
  | [] => []
  | c :: rest =>
    if c = bsChar ∨ c = dqChar ∨ c = dollarChar ∨ c = btChar then
      bsChar :: c :: escapeShell rest
    else c :: escapeShell rest

/-- The export line printed per secret by envCmd.Run (main.go):
`export KEY="<escaped>"` followed by a newline. -/
def formatExportLine (key : String) (value : List Char) : List Char :=
  "export ".toList ++ key.toList ++ ('=' :: dqChar :: escapeShell value) ++ [dqChar, nlChar]

/-- Modelled from the spec: POSIX double-quoted shell expansion of the
characters standing between the two double quotes.  Backslash escapes
only dollar, backtick, double quote, backslash and newline (the pair is
dropped before a newline, both characters kept otherwise); an unescaped
dollar or backtick would trigger an expansion and an unescaped double
quote would terminate the string early, so those do not expand to the
literal bytes (`none`). -/
def dquoteExpand : List Char → Option (List Char)
  | [] => some []
  | [c] =>
    if c = dollarChar ∨ c = btChar ∨ c = dqChar then none else some [c]
  | c :: d :: rest =>
    if c = bsChar then
      if d = dollarChar ∨ d = btChar ∨ d = dqChar ∨ d = bsChar then
        (dquoteExpand rest).map (fun t => d :: t)
      else if d = nlChar then dquoteExpand rest
      else (dquoteExpand (d :: rest)).map (fun t => bsChar :: t)
    else if c = dollarChar ∨ c = btChar ∨ c = dqChar then none
    else (dquoteExpand (d :: rest)).map (fun t => c :: t)

theorem dquoteExpand_escape_pair (c : Char) (l : List Char)
    (h : c = dollarChar ∨ c = btChar ∨ c = dqChar ∨ c = bsChar) :
    dquoteExpand (bsChar :: c :: l) = (dquoteExpand l).map (fun t => c :: t) := by
  simp only [dquoteExpand, if_pos rfl, if_pos h]
  simp

theorem dquoteExpand_ordinary (c : Char) (l : List Char)
    (hbs : ¬ c = bsChar) (hsp : ¬ (c = dollarChar ∨ c = btChar ∨ c = dqChar)) :
    dquoteExpand (c :: l) = (dquoteExpand l).map (fun t => c :: t) := by
  cases l with
  | nil => simp only [dquoteExpand, if_neg hsp, Option.map]
  | cons d rest => simp only [dquoteExpand, if_neg hbs, if_neg hsp]

theorem escapeShell_eq_bind (pt : List Char) :
    escapeShell pt = pt.flatMap (fun c =>
      if c = bsChar ∨ c = dqChar ∨ c = dollarChar ∨ c = btChar then [bsChar, c] else [c]) := by
  induction pt with
  | nil => rfl
  | cons c rest ih =>
    by_cases hc : c = bsChar ∨ c = dqChar ∨ c = dollarChar ∨ c = btChar
    · simp [escapeShell, hc, ih]
    · simp [escapeShell, hc, ih]

theorem dquoteExpand_escapeShell (pt : List Char) :
    dquoteExpand (escapeShell pt) = some pt := by
  induction pt with
  | nil => rfl
  | cons c rest ih =>
    by_cases hc : c = bsChar ∨ c = dqChar ∨ c = dollarChar ∨ c = btChar
    · rw [escapeShell, if_pos hc]
      rw [dquoteExpand_escape_pair c (escapeShell rest) (by tauto), ih]
      rfl
    · rw [escapeShell, if_neg hc]
      push_neg at hc
      rw [dquoteExpand_ordinary c (escapeShell rest) hc.1 (by tauto), ih]
      rfl

/-- C2: the export line is `export KEY="<escaped>"` plus a newline,
where `<escaped>` escapes each backslash, double quote, dollar and
backtick of the plaintext independently with exactly one backslash
(every other character passes through untouched, so nothing is
double-escaped), and POSIX double-quoted shell expansion of `<escaped>`
reconstructs the original plaintext exactly. -/
theorem formatExportLine_roundtrip (key : String) (pt : List Char) (_hnl : nlChar ∉ pt) :
    formatExportLine key pt =
      "export ".toList ++ key.toList ++ ['='] ++ [dqChar] ++
        (pt.flatMap (fun c =>
          if c = bsChar ∨ c = dqChar ∨ c = dollarChar ∨ c = btChar then [bsChar, c]
          else [c])) ++ [dqChar, nlChar] ∧
    dquoteExpand (escapeShell pt) = some pt := by
  refine ⟨?_, dquoteExpand_escapeShell pt⟩
  rw [formatExportLine, escapeShell_eq_bind]
  simp

theorem formatExportLine_roundtrip_witness :
    (nlChar ∉ ("value\"with\"quotes$and`backticks`").toList) ∧
    (formatExportLine "COMPLEX_SECRET" ("value\"with\"quotes$and`backticks`").toList =
      "export ".toList ++ ("COMPLEX_SECRET" : String).toList ++ ['='] ++ [dqChar] ++
        (("value\"with\"quotes$and`backticks`").toList.flatMap (fun c =>
          if c = bsChar ∨ c = dqChar ∨ c = dollarChar ∨ c = btChar then [bsChar, c]
          else [c])) ++ [dqChar, nlChar] ∧
      dquoteExpand (escapeShell ("value\"with\"quotes$and`backticks`").toList) =
        some ("value\"with\"quotes$and`backticks`").toList) :=
  ⟨by decide,
    formatExportLine_roundtrip "COMPLEX_SECRET" ("value\"with\"quotes$and`backticks`").toList
      (by decide)⟩

/-- An HTTP response body of the serve command: raw bytes on success, a
text message on failure. -/
inductive RespBody where
  | bytes (data : List Nat)
  | message (msg : String)
deriving DecidableEq, Repr

/-- Remove a leading segment when it matches, reporting the rest. -/
def dropPfx : List Char → List Char → Option (List Char)
  | [], p => some p
  | _ :: _, [] => none
  | a :: pre, b :: p => if a = b then dropPfx pre p else none

/-- strings.TrimPrefix: drop the leading segment when present, else
return the input unchanged. -/
def trimPfx (pre p : List Char) : List Char :=
  match dropPfx pre p with
  | some rest => rest
  | none => p

/-- The serve /secrets/ handler (main.go): the key is the path after the
"/secrets/" segment; an empty key is a 400, a missing secret a 404, a
decryption failure a 500 (as would be any other storage failure, which
the pure store model cannot produce), success a 200 whose plain-text
body is the decrypted value. -/
def handleGetSecret (s : Store) (encKey : List Nat) (path : List Char) : Nat × RespBody :=
  let key := trimPfx "/secrets/".toList path
  if key = [] then (400, .message "Error: no key specified")
  else
    match GetSecret s (String.mk key) with
    | none => (404, .message "Error: secret not found")
    | some encrypted =>
      match Decrypt encrypted encKey with
      | .error _ => (500, .message "Error: decryption failed")
      | .ok pt => (200, .bytes pt)

theorem dropPfx_append (pre k : List Char) : dropPfx pre (pre ++ k) = some k := by
  induction pre with
  | nil => rfl
  | cons a pre ih => simp [dropPfx, ih]

theorem trimPfx_append (pre k : List Char) : trimPfx pre (pre ++ k) = k := by
  rw [trimPfx, dropPfx_append]

/-- C9: the remote get-one endpoint answers 400 when the key path
segment after /secrets/ is empty, 404 when the key is absent from the
store, 500 when decryption (or, outside the pure model, storage) fails,
and 200 with a plain-text body equal to the decrypted secret value on
success. -/
theorem handleGetSecret_status (s : Store) (encKey : List Nat) (k : List Char)
    (hk : k ≠ []) :
    handleGetSecret s encKey "/secrets/".toList =
      (400, .message "Error: no key specified") ∧
    (GetSecret s (String.mk k) = none →
      handleGetSecret s encKey ("/secrets/".toList ++ k) =
        (404, .message "Error: secret not found")) ∧
    (∀ blob e, GetSecret s (String.mk k) = some blob → Decrypt blob encKey = .error e →
      handleGetSecret s encKey ("/secrets/".toList ++ k) =
        (500, .message "Error: decryption failed")) ∧
    (∀ blob pt, GetSecret s (String.mk k) = some blob → Decrypt blob encKey = .ok pt →
      handleGetSecret s encKey ("/secrets/".toList ++ k) = (200, .bytes pt)) := by
  have hempty : trimPfx "/secrets/".toList "/secrets/".toList = [] := by
    have := trimPfx_append "/secrets/".toList []
    simpa using this
  have hfull : trimPfx "/secrets/".toList ("/secrets/".toList ++ k) = k :=
    trimPfx_append "/secrets/".toList k
  refine ⟨?_, ?_, ?_, ?_⟩
  · simp only [handleGetSecret, hempty, if_pos]
  · intro habs
    simp only [handleGetSecret, hfull, if_neg hk, habs]
  · intro blob e hsome hdec
    simp only [handleGetSecret, hfull, if_neg hk, hsome, hdec]
  · intro blob pt hsome hdec
    simp only [handleGetSecret, hfull, if_neg hk, hsome, hdec]

theorem handleGetSecret_status_witness :
    (['K'] : List Char) ≠ [] ∧
    handleGetSecret { config := [], secrets := [] } (List.replicate 32 7)
      ("/secrets/".toList ++ ['K']) = (404, .message "Error: secret not found") :=
  ⟨by decide,
    (handleGetSecret_status { config := [], secrets := [] } (List.replicate 32 7) ['K']
      (by decide)).2.1 rfl⟩

end Lockbox
